import Mathlib

/-!
Shallow embedding of the kassil/file-commander sources (src/main.rs, src/viewer.rs)
and proofs about the claims of its specification.

A file is modelled as a list of bytes (List Nat).  The buffered reader of the
viewer is modelled by an explicit read position; seeking and reading become
pure list operations.  Terminal rendering calls (ncurses) are effect-free with
respect to the states the claims talk about and are dropped; the audible alert
(beep) is modelled as a returned Boolean flag.
-/

/-- Byte value of the ASCII newline character. -/
def nlByte : Nat := 10

/-- Index of the first newline byte in a list, mirroring the forward search
performed by read_line in the Rust standard library. -/
def findNl : List Nat → Option Nat
  | [] => none
  | b :: l => if b = nlByte then some 0 else (findNl l).map (· + 1)

/-- Number of bytes consumed by one read_line call starting at byte offset pos:
everything up to and including the first newline, or up to end of file. -/
def readLineLen (file : List Nat) (pos : Nat) : Nat :=
  match findNl (file.drop pos) with
  | some i => i + 1
  | none => (file.drop pos).length

/-- Bytes delivered by seeking to pos and reading n bytes: the read is short
when fewer than n bytes remain. -/
def readBytes (file : List Nat) (pos n : Nat) : List Nat :=
  (file.drop pos).take n

/-- Index of the last element satisfying p, mirroring Iterator::rposition from
the Rust standard library. -/
def rposition (p : Nat → Bool) : List Nat → Option Nat
  | [] => none
  | a :: l =>
    match rposition p l with
    | some i => some (i + 1)
    | none => if p a then some 0 else none

/-- Offset o is the start of a line of the file: the file start, or a position
immediately preceded by a newline byte. -/
def lineStart (file : List Nat) (o : Nat) : Prop :=
  o = 0 ∨ file[o - 1]? = some nlByte

instance (file : List Nat) (o : Nat) : Decidable (lineStart file o) := by
  unfold lineStart
  infer_instance

namespace Viewer

/-- State of the modal file viewer of src/viewer.rs: the VecDeque line_offsets
of byte offsets of visible line starts (window) plus the current position of
the BufReader (rpos). -/
structure ViewerState where
  window : List Nat
  rpos : Nat
deriving DecidableEq

/-- Embedding of find_prev_line_start (src/viewer.rs lines 11-38): chunked
backward scan for the start of the line that precedes byte offset file_pos. -/
def find_prev_line_start (file : List Nat) (file_pos : Nat) : Nat :=
  if file_pos = 0 then 0
  else
    let backstep := min 4096 (file_pos - 1)
    let seek_pos := file_pos - backstep - 1
    let buf := readBytes file seek_pos backstep
    match rposition (fun b => b == nlByte) buf with
    | some rel_idx => seek_pos + rel_idx + 1
    | none => 0

/-- Embedding of scroll_down (src/viewer.rs lines 106-138).  The Boolean result
records whether beep() was called (end of file).  The seek to the trailing
offset happens before the read, so rpos moves even on the failing path. -/
def scroll_down (file : List Nat) (s : ViewerState) : ViewerState × Bool :=
  let bot_file_pos := s.window.getLastD 0
  let line_n_bytes := readLineLen file bot_file_pos
  if line_n_bytes = 0 then
    ({ window := s.window, rpos := bot_file_pos }, true)
  else
    ({ window := s.window.tail ++ [bot_file_pos + line_n_bytes],
       rpos := bot_file_pos + line_n_bytes }, false)

/-- Embedding of scroll_up (src/viewer.rs lines 140-169).  When the top offset
is 0 nothing happens at all; in particular no beep is sounded, which the
returned flag (always false) records. -/
def scroll_up (file : List Nat) (s : ViewerState) : ViewerState × Bool :=
  let front := s.window.headD 0
  if front > 0 then
    let new_pos := find_prev_line_start file front
    ({ window := new_pos :: s.window.dropLast,
       rpos := new_pos + readLineLen file new_pos }, false)
  else
    (s, false)

/-- Loop body of expand_rows (src/viewer.rs lines 70-89): runs the for loop a
given number of times.  Each iteration reads a line at the reader's current
position (the Rust code performs no seek here) but records the offset
line_offsets.back() + bytes_read. -/
def expandLoop (file : List Nat) : Nat → ViewerState → ViewerState
  | 0, s => s
  | k + 1, s =>
    let pos := s.window.getLastD 0
    let n_bytes := readLineLen file s.rpos
    if n_bytes = 0 then s
    else expandLoop file k { window := s.window ++ [pos + n_bytes], rpos := s.rpos + n_bytes }

/-- Embedding of expand_rows (src/viewer.rs lines 70-89); height is the number
of text rows of the inner window (getmaxy). -/
def expand_rows (file : List Nat) (height : Nat) (s : ViewerState) : ViewerState :=
  expandLoop file (1 + height - s.window.length) s

/-- Embedding of contract_rows (src/viewer.rs lines 91-94). -/
def contract_rows (height : Nat) (s : ViewerState) : ViewerState :=
  { s with window := s.window.take (1 + height) }

/-- Opening portion of view_file_modal (src/viewer.rs lines 200-206): the
window starts as the single offset 0 with the reader at position 0, then
expand_rows fills it. -/
def view_file_open (file : List Nat) (height : Nat) : ViewerState :=
  expand_rows file height { window := [0], rpos := 0 }

/-- KEY_RESIZE handling inside view_file_modal (src/viewer.rs lines 227-234):
expand_rows followed by contract_rows at the new height. -/
def viewer_resize (file : List Nat) (height : Nat) (s : ViewerState) : ViewerState :=
  contract_rows height (expand_rows file height s)

/-- Iterated scroll_down; the Boolean is true when some step hit end of file. -/
def scrollDownN (file : List Nat) : Nat → ViewerState → ViewerState × Bool
  | 0, s => (s, false)
  | k + 1, s =>
    let r := scroll_down file s
    if r.2 then (r.1, true) else scrollDownN file k r.1

/-- Iterated scroll_up. -/
def scrollUpN (file : List Nat) : Nat → ViewerState → ViewerState
  | 0, s => s
  | k + 1, s => (scroll_up file (scrollUpN file k s)).1

end Viewer

instance {ε α : Type} [DecidableEq ε] [DecidableEq α] : DecidableEq (Except ε α) := fun x y =>
  match x, y with
  | .ok a, .ok b =>
      if h : a = b then isTrue (by rw [h]) else isFalse (by intro hc; injection hc; contradiction)
  | .ok _, .error _ => isFalse (by intro hc; exact Except.noConfusion hc)
  | .error _, .ok _ => isFalse (by intro hc; exact Except.noConfusion hc)
  | .error e, .error f =>
      if h : e = f then isTrue (by rw [h]) else isFalse (by intro hc; injection hc; contradiction)

namespace Main

/-- Embedding of enum DirListItem (src/main.rs lines 21-24).  Paths are
abstracted to numeric identifiers; a filesystem entry is identified by its raw
file name, a byte string. -/
inductive DirListItem where
  | ParentDir (path : Nat)
  | Entry (name : List Nat)
deriving DecidableEq

/-- Input to one directory load: the parent of the current path (none at the
filesystem root), and the outcome of fs::read_dir — either a typed error or
the raw entries, each itself read fallibly (the per-entry io::Result of the
ReadDir iterator). -/
structure DirectoryFS where
  parent : Option Nat
  entries : Except Unit (List (Except Unit (List Nat)))

/-- Embedding of struct DirView (src/main.rs lines 12-19); the ncurses window
and the path are dropped, the visible capacity (window height minus the two
border rows) is passed to the operations separately, as the code recomputes it
from the window on every call. -/
structure DirView where
  selected : Nat
  scroll_offset : Nat
  dirents : Except Unit (List DirListItem)
  dirty : Bool
deriving DecidableEq

/-- Byte-wise lexicographic comparison of raw file names, the Ord instance
used by sort_by_key over OsString keys. -/
def lexLe : List Nat → List Nat → Bool
  | [], _ => true
  | _ :: _, [] => false
  | a :: as, b :: bs => Nat.blt a b || (a == b && lexLe as bs)

/-- Propositional form of lexLe, the sorting relation. -/
def nameLe (a b : List Nat) : Prop := lexLe a b = true

instance : DecidableRel nameLe := fun a b => inferInstanceAs (Decidable (lexLe a b = true))

/-- Successful per-entry reads of a ReadDir listing, in iteration order: the
filter_map(Result::ok) step of read_directory_contents. -/
def okNames (l : List (Except Unit (List Nat))) : List (List Nat) :=
  l.filterMap fun r => match r with | .ok n => some n | .error _ => none

/-- Embedding of read_directory_contents (src/main.rs lines 338-344): drop the
entries whose retrieval failed, sort the rest by raw file name. -/
def read_directory_contents (d : DirectoryFS) : Except Unit (List (List Nat)) :=
  match d.entries with
  | .error e => .error e
  | .ok rs => .ok ((okNames rs).insertionSort nameLe)

/-- Embedding of DirView::reload (src/main.rs lines 34-60): prepend the parent
entry unless at the root, then the sorted real entries; on read failure store
the error.  Selection and scroll are reset and the view marked dirty. -/
def reload (d : DirectoryFS) : DirView :=
  let elts : List DirListItem :=
    match d.parent with
    | some parent => [DirListItem.ParentDir parent]
    | none => []
  match read_directory_contents d with
  | .ok entries =>
      { selected := 0, scroll_offset := 0,
        dirents := .ok (elts ++ entries.map DirListItem.Entry), dirty := true }
  | .error e =>
      { selected := 0, scroll_offset := 0, dirents := .error e, dirty := true }

/-- Embedding of DirView::resize (src/main.rs lines 86-91): the ncurses window
is resized and moved and the view marked dirty; selected and scroll_offset are
not touched. -/
def resize (v : DirView) : DirView :=
  { v with dirty := true }

/-- Embedding of scroll_down (src/main.rs lines 174-194); view_height is the
visible capacity (getmaxy minus the two border rows).  The Boolean records
whether beep() was called. -/
def scroll_down (view_height : Nat) (v : DirView) : DirView × Bool :=
  match v.dirents with
  | .ok list =>
      if v.selected + 1 < list.length then
        let sel := v.selected + 1
        ({ v with
            selected := sel,
            scroll_offset :=
              if v.scroll_offset + view_height ≤ sel then v.scroll_offset + 1
              else v.scroll_offset,
            dirty := true }, false)
      else (v, true)
  | .error _ => (v, true)

/-- Embedding of scroll_up (src/main.rs lines 196-215). -/
def scroll_up (v : DirView) : DirView × Bool :=
  match v.dirents with
  | .ok _ =>
      if v.selected > 0 then
        let sel := v.selected - 1
        ({ v with
            selected := sel,
            scroll_offset :=
              if sel < v.scroll_offset then v.scroll_offset - 1
              else v.scroll_offset,
            dirty := true }, false)
      else (v, true)
  | .error _ => (v, true)

/-- Abstraction of a fs::DirEntry as seen by is_openable_dir: the outcome of
fs::metadata on its path (which follows symbolic links), carrying the is_dir
flag on success, and whether fs::read_dir on that path would succeed. -/
structure FsEntry where
  meta : Except Unit Bool
  readDirOk : Bool
deriving DecidableEq

/-- Embedding of is_openable_dir (src/main.rs lines 348-360): only the
metadata is consulted; the read_dir confirmation is commented out in the
source, so readDirOk is never read. -/
def is_openable_dir (e : FsEntry) : Bool :=
  match e.meta with
  | .ok true => true
  | _ => false

/-- One key press of the main loop restricted to the two selection moves. -/
inductive Move where
  | up
  | down
deriving DecidableEq

/-- Apply a sequence of KEY_UP / KEY_DOWN presses to a DirView. -/
def applyMoves (view_height : Nat) (moves : List Move) (v : DirView) : DirView :=
  moves.foldl
    (fun st m =>
      match m with
      | Move.up => (scroll_up st).1
      | Move.down => (scroll_down view_height st).1)
    v

/-- Viewport invariant of the specification for a directory view of the given
visible capacity over a backing sequence of the given length. -/
def dirInv (cap : Nat) (v : DirView) (len : Nat) : Prop :=
  v.selected < len ∧ v.scroll_offset ≤ v.selected ∧ v.selected < v.scroll_offset + cap

instance (cap : Nat) (v : DirView) (len : Nat) : Decidable (dirInv cap v len) := by
  unfold dirInv
  infer_instance

end Main

/-- Consecutive offsets of a window each mark the start of the next line after
the previous one: o(i+1) = o(i) + readLineLen at o(i), with a nonzero line in
between. -/
def lineChainB (file : List Nat) : List Nat → Bool
  | [] => true
  | [_] => true
  | a :: b :: rest =>
      (b == a + readLineLen file a) && (! (readLineLen file a == 0)) && lineChainB file (b :: rest)

/-- A well-formed viewer window: nonempty, its first offset is a line start,
and successive offsets chain through readLineLen. -/
def goodWindow (file : List Nat) (w : List Nat) : Prop :=
  w ≠ [] ∧ lineStart file (w.headD 0) ∧ lineChainB file w = true

instance (file : List Nat) (w : List Nat) : Decidable (goodWindow file w) := by
  unfold goodWindow
  infer_instance

/-- Bytes of the file a-newline-bb-newline-ccc-newline-dddd-newline used to
exhibit the resize defect. -/
def fileC5 : List Nat := [97, 10, 98, 98, 10, 99, 99, 99, 10, 100, 100, 100, 100, 10]

/-- Bytes of the three-line file of the specification scenario: one, two and
three on separate lines with no trailing newline. -/
def fileC4 : List Nat := [111, 110, 101, 10, 116, 119, 111, 10, 116, 104, 114, 101, 101]

/-- Raw bytes of the file name a.txt. -/
def aName : List Nat := [97, 46, 116, 120, 116]

/-- Raw bytes of the file name b.txt. -/
def bName : List Nat := [98, 46, 116, 120, 116]

/-- Raw bytes of the directory name c. -/
def cName : List Nat := [99]

/-- The scenario directory of the specification: a non-root directory whose
read_dir yields b.txt, a.txt and c, in that raw order, all successfully. -/
def dirC6 : Main.DirectoryFS :=
  { parent := some 0, entries := .ok [.ok bName, .ok aName, .ok cName] }

/-- A directory whose listing succeeds but whose second entry fails to be
retrieved. -/
def dirC10 : Main.DirectoryFS :=
  { parent := none, entries := .ok [.ok bName, .error (), .ok aName] }

/-- A reachable directory view: four entries, selection on the last one with
the window scrolled to keep it visible at capacity four. -/
def vC7 : Main.DirView :=
  { selected := 3, scroll_offset := 0,
    dirents := .ok [.ParentDir 0, .Entry aName, .Entry bName, .Entry cName], dirty := false }

/-- Bytes of the two-line file a-newline-b-newline. -/
def fileC8 : List Nat := [97, 10, 98, 10]

/-- Viewer state at the very top of fileC8 with one visible line. -/
def sC8 : Viewer.ViewerState := { window := [0, 2], rpos := 2 }

theorem list_get_congr (l : List Nat) (a b : Nat) (ha : a < l.length) (h : a = b) :
    l.get ⟨a, ha⟩ = l.get ⟨b, h ▸ ha⟩ := by
  subst h
  rfl

theorem findNl_some_spec : ∀ {l : List Nat} {i : Nat}, findNl l = some i →
    ∃ h : i < l.length, l.get ⟨i, h⟩ = nlByte ∧
      ∀ j (hj : j < l.length), j < i → l.get ⟨j, hj⟩ ≠ nlByte := by
  intro l
  induction l with
  | nil => intro i h; simp [findNl] at h
  | cons b l ih =>
    intro i h
    unfold findNl at h
    by_cases hb : b = nlByte
    · rw [if_pos hb] at h
      obtain rfl : i = 0 := by simpa using h.symm
      exact ⟨Nat.succ_pos _, by simpa using hb, fun j hj hji => absurd hji (Nat.not_lt_zero j)⟩
    · rw [if_neg hb] at h
      obtain ⟨i', hi', rfl⟩ := Option.map_eq_some'.mp h
      obtain ⟨hlt, hget, hbefore⟩ := ih hi'
      refine ⟨by simpa using Nat.succ_lt_succ hlt, by simpa using hget, ?_⟩
      intro j hj hji
      match j with
      | 0 => simpa using hb
      | j' + 1 =>
        have hj' : j' < l.length := by simpa using hj
        have : l.get ⟨j', hj'⟩ ≠ nlByte := hbefore j' hj' (by omega)
        simpa using this

theorem findNl_none_spec : ∀ {l : List Nat}, findNl l = none →
    ∀ j (hj : j < l.length), l.get ⟨j, hj⟩ ≠ nlByte := by
  intro l
  induction l with
  | nil => intro _ j hj; simp at hj
  | cons b l ih =>
    intro h j hj
    unfold findNl at h
    by_cases hb : b = nlByte
    · rw [if_pos hb] at h; simp at h
    · rw [if_neg hb] at h
      have hl : findNl l = none := by
        cases hfl : findNl l with
        | none => rfl
        | some i => rw [hfl] at h; simp at h
      match j with
      | 0 => simpa using hb
      | j' + 1 =>
        have hj' : j' < l.length := by simpa using hj
        simpa using ih hl j' hj'

theorem readLineLen_ne_zero_iff (file : List Nat) (pos : Nat) :
    readLineLen file pos ≠ 0 ↔ pos < file.length := by
  cases hf : findNl (file.drop pos) with
  | some i =>
    have hval : readLineLen file pos = i + 1 := by unfold readLineLen; rw [hf]
    obtain ⟨hi, -, -⟩ := findNl_some_spec hf
    rw [List.length_drop] at hi
    rw [hval]
    omega
  | none =>
    have hval : readLineLen file pos = file.length - pos := by
      unfold readLineLen
      rw [hf, List.length_drop]
    rw [hval]
    omega

theorem readLineLen_le (file : List Nat) (pos : Nat) :
    readLineLen file pos ≤ file.length - pos := by
  cases hf : findNl (file.drop pos) with
  | some i =>
    have hval : readLineLen file pos = i + 1 := by unfold readLineLen; rw [hf]
    obtain ⟨hi, -, -⟩ := findNl_some_spec hf
    rw [List.length_drop] at hi
    omega
  | none =>
    have hval : readLineLen file pos = file.length - pos := by
      unfold readLineLen
      rw [hf, List.length_drop]
    omega

theorem get_drop_eq (file : List Nat) (pos j : Nat) (h : j < (file.drop pos).length) :
    (file.drop pos).get ⟨j, h⟩
      = file.get ⟨pos + j, by rw [List.length_drop] at h; omega⟩ := by
  simp [List.get_eq_getElem, List.getElem_drop]

theorem readBytes_length (file : List Nat) (pos n : Nat) :
    (readBytes file pos n).length = min n (file.length - pos) := by
  simp [readBytes, List.length_take, List.length_drop]

theorem readBytes_get (file : List Nat) (pos n j : Nat) (h : j < (readBytes file pos n).length) :
    (readBytes file pos n).get ⟨j, h⟩
      = file.get ⟨pos + j, by rw [readBytes_length] at h; omega⟩ := by
  have hh := h
  rw [readBytes_length] at hh
  simp [readBytes, List.get_eq_getElem, List.getElem_take, List.getElem_drop]

theorem no_nl_inside (file : List Nat) (pos j : Nat) (hj : j + 1 < readLineLen file pos)
    (hlen : pos + j < file.length) : file.get ⟨pos + j, hlen⟩ ≠ nlByte := by
  have hrl := readLineLen_le file pos
  have hdj : j < (file.drop pos).length := by rw [List.length_drop]; omega
  have hkey : (file.drop pos).get ⟨j, hdj⟩ ≠ nlByte := by
    cases hf : findNl (file.drop pos) with
    | some i =>
      have hval : readLineLen file pos = i + 1 := by unfold readLineLen; rw [hf]
      rw [hval] at hj
      obtain ⟨hi, -, hbefore⟩ := findNl_some_spec hf
      exact hbefore j hdj (by omega)
    | none => exact findNl_none_spec hf j hdj
  rw [get_drop_eq] at hkey
  exact hkey

theorem readLineLen_last_byte (file : List Nat) (pos : Nat) (hpos : pos < file.length) :
    (∃ h : pos + readLineLen file pos - 1 < file.length,
        file.get ⟨pos + readLineLen file pos - 1, h⟩ = nlByte)
    ∨ pos + readLineLen file pos = file.length := by
  cases hf : findNl (file.drop pos) with
  | some i =>
    have hval : readLineLen file pos = i + 1 := by unfold readLineLen; rw [hf]
    obtain ⟨hi, hget, -⟩ := findNl_some_spec hf
    rw [get_drop_eq] at hget
    rw [List.length_drop] at hi
    left
    rw [hval]
    refine ⟨by omega, ?_⟩
    rw [list_get_congr file (pos + (i + 1) - 1) (pos + i) (by omega) (by omega)]
    exact hget
  | none =>
    have hval : readLineLen file pos = file.length - pos := by
      unfold readLineLen
      rw [hf, List.length_drop]
    right
    omega

theorem rposition_eq_none {p : Nat → Bool} : ∀ {l : List Nat},
    (∀ j (hj : j < l.length), p (l.get ⟨j, hj⟩) = false) → rposition p l = none := by
  intro l
  induction l with
  | nil => intro _; rfl
  | cons a l ih =>
    intro h
    have hl : rposition p l = none := ih fun j hj => by simpa using h (j + 1) (by simpa using Nat.succ_lt_succ hj)
    have ha : p a = false := by simpa using h 0 (Nat.succ_pos _)
    simp [rposition, hl, ha]

theorem lineStart_next (file : List Nat) (o : Nat)
    (hm : readLineLen file (o + readLineLen file o) ≠ 0) :
    lineStart file (o + readLineLen file o) := by
  have hlt : o + readLineLen file o < file.length :=
    (readLineLen_ne_zero_iff file _).mp hm
  have hn : readLineLen file o ≠ 0 := by
    intro h0
    rw [h0, Nat.add_zero] at hm
    exact hm h0
  have hpos : o < file.length := (readLineLen_ne_zero_iff file o).mp hn
  rcases readLineLen_last_byte file o hpos with ⟨h, hget⟩ | hEOF
  · right
    rw [List.getElem?_eq_getElem h]
    rw [List.get_eq_getElem] at hget
    rw [hget]
  · omega

theorem rposition_eq_some {p : Nat → Bool} : ∀ {l : List Nat} {r : Nat} (hr : r < l.length),
    p (l.get ⟨r, hr⟩) = true →
    (∀ j (hj : j < l.length), r < j → p (l.get ⟨j, hj⟩) = false) →
    rposition p l = some r := by
  intro l
  induction l with
  | nil => intro r hr; simp at hr
  | cons a l ih =>
    intro r hr hp hafter
    match r with
    | 0 =>
      have hl : rposition p l = none := by
        apply rposition_eq_none
        intro j hj
        have := hafter (j + 1) (by simpa using Nat.succ_lt_succ hj) (Nat.succ_pos j)
        simpa using this
      have ha : p a = true := by simpa using hp
      simp [rposition, hl, ha]
    | r' + 1 =>
      have hr' : r' < l.length := by simpa using hr
      have hp' : p (l.get ⟨r', hr'⟩) = true := by simpa using hp
      have hafter' : ∀ j (hj : j < l.length), r' < j → p (l.get ⟨j, hj⟩) = false := by
        intro j hj hgt
        have := hafter (j + 1) (by simpa using Nat.succ_lt_succ hj) (by omega)
        simpa using this
      have hl := ih hr' hp' hafter'
      simp [rposition, hl]

theorem find_prev_line_start_eq (file : List Nat) (fp : Nat) (h : fp ≠ 0) :
    Viewer.find_prev_line_start file fp =
      match rposition (fun b => b == nlByte)
          (readBytes file (fp - min 4096 (fp - 1) - 1) (min 4096 (fp - 1))) with
      | some rel_idx => fp - min 4096 (fp - 1) - 1 + rel_idx + 1
      | none => 0 := by
  unfold Viewer.find_prev_line_start
  rw [if_neg h]

theorem find_prev_line_start_inverts (file : List Nat) (o0 n : Nat) (hls : lineStart file o0)
    (hndef : readLineLen file o0 = n) (hn : n ≠ 0) (h4096 : n ≤ 4096) :
    Viewer.find_prev_line_start file (o0 + n) = o0 := by
  have hn1 : 1 ≤ n := Nat.one_le_iff_ne_zero.mpr hn
  have ho0len : o0 < file.length := by
    rw [← hndef] at hn
    exact (readLineLen_ne_zero_iff file o0).mp hn
  have hfit : readLineLen file o0 ≤ file.length - o0 := readLineLen_le file o0
  have hne0 : o0 + n ≠ 0 := by omega
  rw [find_prev_line_start_eq file _ hne0]
  have hB4096 : min 4096 (o0 + n - 1) ≤ 4096 := Nat.min_le_left _ _
  have hBle : min 4096 (o0 + n - 1) ≤ o0 + n - 1 := Nat.min_le_right _ _
  have hnB : o0 ≠ 0 → n ≤ min 4096 (o0 + n - 1) :=
    fun h => Nat.le_min.mpr ⟨h4096, by have := Nat.one_le_iff_ne_zero.mpr h; omega⟩
  generalize hBg : min 4096 (o0 + n - 1) = B at hB4096 hBle hnB ⊢
  have hbuflen : (readBytes file (o0 + n - B - 1) B).length = B := by
    rw [readBytes_length]
    omega
  by_cases ho0 : o0 = 0
  · have hnone : rposition (fun b => b == nlByte) (readBytes file (o0 + n - B - 1) B)
        = none := by
      apply rposition_eq_none
      intro j hj
      rw [readBytes_get]
      have hj' : j < B := by rw [hbuflen] at hj; exact hj
      rw [beq_eq_false_iff_ne]
      have hidx : o0 + n - B - 1 + j = o0 + (o0 + n - B - 1 + j - o0) := by omega
      rw [list_get_congr file _ _ _ hidx]
      apply no_nl_inside
      omega
    rw [hnone]
    show (0 : Nat) = o0
    omega
  · have hge1 : 1 ≤ o0 := Nat.one_le_iff_ne_zero.mpr ho0
    have hnl : file[o0 - 1]? = some nlByte := by
      rcases hls with h0 | hsome
      · exact absurd h0 ho0
      · exact hsome
    have hnlget : ∃ h : o0 - 1 < file.length, file.get ⟨o0 - 1, h⟩ = nlByte := by
      rcases List.getElem?_eq_some.mp hnl with ⟨h, hv⟩
      exact ⟨h, by rw [List.get_eq_getElem]; exact hv⟩
    obtain ⟨ho1len, hnlval⟩ := hnlget
    have hnB' : n ≤ B := hnB ho0
    have hsome : rposition (fun b => b == nlByte) (readBytes file (o0 + n - B - 1) B)
        = some (o0 - 1 - (o0 + n - B - 1)) := by
      have hr : o0 - 1 - (o0 + n - B - 1) < (readBytes file (o0 + n - B - 1) B).length := by
        rw [hbuflen]
        omega
      apply rposition_eq_some hr
      · rw [readBytes_get]
        have hidx : o0 + n - B - 1 + (o0 - 1 - (o0 + n - B - 1)) = o0 - 1 := by omega
        rw [list_get_congr file _ _ _ hidx]
        rw [beq_iff_eq]
        exact hnlval
      · intro j hj hgt
        rw [readBytes_get]
        have hj' : j < B := by rw [hbuflen] at hj; exact hj
        rw [beq_eq_false_iff_ne]
        have hidx : o0 + n - B - 1 + j = o0 + (o0 + n - B - 1 + j - o0) := by omega
        rw [list_get_congr file _ _ _ hidx]
        apply no_nl_inside
        omega
    rw [hsome]
    show o0 + n - B - 1 + (o0 - 1 - (o0 + n - B - 1)) + 1 = o0
    omega

theorem getLastD_cons_cons (a b d : Nat) (rest : List Nat) :
    (a :: b :: rest).getLastD d = (b :: rest).getLastD d := by
  simp [List.getLastD_eq_getLast?]

theorem lineChainB_cons_cons (file : List Nat) (a b : Nat) (rest : List Nat) :
    lineChainB file (a :: b :: rest) = true
      ↔ b = a + readLineLen file a ∧ readLineLen file a ≠ 0
        ∧ lineChainB file (b :: rest) = true := by
  simp [lineChainB, Bool.and_eq_true, beq_iff_eq, and_assoc]

theorem lineChainB_snoc (file : List Nat) : ∀ (w : List Nat), w ≠ [] →
    lineChainB file w = true → readLineLen file (w.getLastD 0) ≠ 0 →
    lineChainB file (w ++ [w.getLastD 0 + readLineLen file (w.getLastD 0)]) = true := by
  intro w
  induction w with
  | nil => intro h; exact absurd rfl h
  | cons a rest ih =>
    intro _ hch hn
    cases rest with
    | nil =>
      have hn' : readLineLen file a ≠ 0 := hn
      show lineChainB file [a, a + readLineLen file a] = true
      simp [lineChainB, hn']
    | cons b rest' =>
      rw [getLastD_cons_cons] at hn ⊢
      obtain ⟨hab, ha, hch'⟩ := (lineChainB_cons_cons file a b rest').mp hch
      have h2 := ih (by simp) hch' hn
      rw [List.cons_append] at h2 ⊢
      rw [List.cons_append]
      exact (lineChainB_cons_cons file a b (rest' ++ [_])).mpr ⟨hab, ha, h2⟩

theorem lineChainB_tail (file : List Nat) : ∀ (w : List Nat),
    lineChainB file w = true → lineChainB file w.tail = true := by
  intro w hch
  cases w with
  | nil => simpa using hch
  | cons a rest =>
    cases rest with
    | nil => simp [lineChainB]
    | cons b rest' =>
      exact ((lineChainB_cons_cons file a b rest').mp hch).2.2

theorem chain_first_pos (file : List Nat) : ∀ (w : List Nat), lineChainB file w = true →
    readLineLen file (w.getLastD 0) ≠ 0 → readLineLen file (w.headD 0) ≠ 0 := by
  intro w hch hlast
  cases w with
  | nil => simpa using hlast
  | cons a rest =>
    cases rest with
    | nil => simpa using hlast
    | cons b rest' =>
      exact ((lineChainB_cons_cons file a b rest').mp hch).2.1

theorem viewer_scroll_down_def (file : List Nat) (s : Viewer.ViewerState) :
    Viewer.scroll_down file s
      = if readLineLen file (s.window.getLastD 0) = 0
        then ({ window := s.window, rpos := s.window.getLastD 0 }, true)
        else ({ window := s.window.tail
                  ++ [s.window.getLastD 0 + readLineLen file (s.window.getLastD 0)],
                rpos := s.window.getLastD 0 + readLineLen file (s.window.getLastD 0) }, false) :=
  rfl

theorem viewer_scroll_up_def (file : List Nat) (s : Viewer.ViewerState) :
    Viewer.scroll_up file s
      = if s.window.headD 0 > 0
        then ({ window := Viewer.find_prev_line_start file (s.window.headD 0) :: s.window.dropLast,
                rpos := Viewer.find_prev_line_start file (s.window.headD 0)
                  + readLineLen file (Viewer.find_prev_line_start file (s.window.headD 0)) }, false)
        else (s, false) :=
  rfl

theorem viewer_scroll_down_beep_iff (file : List Nat) (s : Viewer.ViewerState) :
    (Viewer.scroll_down file s).2 = true ↔ readLineLen file (s.window.getLastD 0) = 0 := by
  rw [viewer_scroll_down_def]
  by_cases h : readLineLen file (s.window.getLastD 0) = 0
  · rw [if_pos h]
    exact ⟨fun _ => h, fun _ => rfl⟩
  · rw [if_neg h]
    exact ⟨fun hc => by simp at hc, fun hc => absurd hc h⟩

theorem viewer_scroll_down_window (file : List Nat) (s : Viewer.ViewerState)
    (hn : readLineLen file (s.window.getLastD 0) ≠ 0) :
    (Viewer.scroll_down file s).1.window
      = s.window.tail ++ [s.window.getLastD 0 + readLineLen file (s.window.getLastD 0)] := by
  rw [viewer_scroll_down_def, if_neg hn]

theorem viewer_scroll_up_window_pos (file : List Nat) (s : Viewer.ViewerState)
    (h : 0 < s.window.headD 0) :
    (Viewer.scroll_up file s).1.window
      = Viewer.find_prev_line_start file (s.window.headD 0) :: s.window.dropLast := by
  rw [viewer_scroll_up_def, if_pos h]

theorem viewer_scroll_up_zero (file : List Nat) (s : Viewer.ViewerState)
    (h : s.window.headD 0 = 0) :
    Viewer.scroll_up file s = (s, false) := by
  rw [viewer_scroll_up_def, if_neg (by omega)]

theorem head_after_down (file : List Nat) (w : List Nat) (hne : w ≠ [])
    (hch : lineChainB file w = true) (hn : readLineLen file (w.getLastD 0) ≠ 0) :
    (w.tail ++ [w.getLastD 0 + readLineLen file (w.getLastD 0)]).headD 0
      = w.headD 0 + readLineLen file (w.headD 0)
    ∧ readLineLen file (w.headD 0) ≠ 0 := by
  cases w with
  | nil => exact absurd rfl hne
  | cons a rest =>
    cases rest with
    | nil => exact ⟨by simp, by simpa using hn⟩
    | cons b rest' =>
      obtain ⟨hab, ha, -⟩ := (lineChainB_cons_cons file a b rest').mp hch
      exact ⟨by simpa using hab, ha⟩

theorem scrollDownN_succ (file : List Nat) (k : Nat) (s : Viewer.ViewerState) :
    Viewer.scrollDownN file (k + 1) s
      = if (Viewer.scroll_down file s).2 then ((Viewer.scroll_down file s).1, true)
        else Viewer.scrollDownN file k (Viewer.scroll_down file s).1 :=
  rfl

theorem headD_cons_tail (w : List Nat) (hne : w ≠ []) : w.headD 0 :: w.tail = w := by
  cases w with
  | nil => exact absurd rfl hne
  | cons a rest => rfl

theorem tail_append_singleton (w : List Nat) (hw : w ≠ []) (x : Nat) :
    w.tail ++ [x] = (w ++ [x]).tail := by
  cases w with
  | nil => exact absurd rfl hw
  | cons a r => rfl

theorem down_undone (file : List Nat) (s : Viewer.ViewerState) (hne : s.window ≠ [])
    (hls : lineStart file (s.window.headD 0))
    (hch : lineChainB file s.window = true)
    (h4 : readLineLen file (s.window.headD 0) ≤ 4096)
    (hn : readLineLen file (s.window.getLastD 0) ≠ 0)
    (t : Viewer.ViewerState)
    (ht : t.window = s.window.tail ++ [s.window.getLastD 0 + readLineLen file (s.window.getLastD 0)]) :
    (Viewer.scroll_up file t).1.window = s.window := by
  obtain ⟨hhead, hh0⟩ := head_after_down file s.window hne hch hn
  have hpos : 0 < t.window.headD 0 := by
    rw [ht, hhead]
    omega
  rw [viewer_scroll_up_window_pos file t hpos, ht, hhead]
  rw [find_prev_line_start_inverts file (s.window.headD 0) (readLineLen file (s.window.headD 0))
    hls rfl hh0 h4]
  rw [List.dropLast_concat]
  exact headD_cons_tail s.window hne

theorem roundtrip_aux (file : List Nat)
    (h4096 : ∀ o, o < file.length → lineStart file o → readLineLen file o ≤ 4096) :
    ∀ (k : Nat) (s : Viewer.ViewerState), s.window ≠ [] →
      lineStart file (s.window.headD 0) → lineChainB file s.window = true →
      (Viewer.scrollDownN file k s).2 = false →
      (Viewer.scrollUpN file k (Viewer.scrollDownN file k s).1).window = s.window := by
  intro k
  induction k with
  | zero => intro s _ _ _ _; rfl
  | succ k ih =>
    intro s hne hls hch hok
    cases hbeep : (Viewer.scroll_down file s).2 with
    | true =>
      rw [scrollDownN_succ, if_pos (by rw [hbeep])] at hok
      simp at hok
    | false =>
      have hn : readLineLen file (s.window.getLastD 0) ≠ 0 := by
        intro h0
        have := (viewer_scroll_down_beep_iff file s).mpr h0
        rw [hbeep] at this
        cases this
      have hdownN : Viewer.scrollDownN file (k + 1) s
          = Viewer.scrollDownN file k (Viewer.scroll_down file s).1 := by
        rw [scrollDownN_succ, if_neg (by rw [hbeep]; exact Bool.false_ne_true)]
      rw [hdownN] at hok ⊢
      have hw1 : (Viewer.scroll_down file s).1.window
          = s.window.tail ++ [s.window.getLastD 0 + readLineLen file (s.window.getLastD 0)] :=
        viewer_scroll_down_window file s hn
      have hne1 : (Viewer.scroll_down file s).1.window ≠ [] := by
        rw [hw1]
        simp
      have hhead1 := head_after_down file s.window hne hch hn
      have hh0 : readLineLen file (s.window.headD 0) ≠ 0 := hhead1.2
      have hlen0 : s.window.headD 0 < file.length := (readLineLen_ne_zero_iff file _).mp hh0
      have h4 : readLineLen file (s.window.headD 0) ≤ 4096 := h4096 _ hlen0 hls
      have hch1 : lineChainB file (Viewer.scroll_down file s).1.window = true := by
        rw [hw1]
        have hsnoc := lineChainB_snoc file s.window hne hch hn
        rw [tail_append_singleton s.window hne]
        exact lineChainB_tail file _ hsnoc
      cases k with
      | zero =>
        show (Viewer.scroll_up file (Viewer.scroll_down file s).1).1.window = s.window
        exact down_undone file s hne hls hch h4 hn _ hw1
      | succ k' =>
        have hbeep1 : (Viewer.scroll_down file (Viewer.scroll_down file s).1).2 = false := by
          cases hb : (Viewer.scroll_down file (Viewer.scroll_down file s).1).2 with
          | false => rfl
          | true =>
            rw [scrollDownN_succ, if_pos (by rw [hb])] at hok
            simp at hok
        have hn1 : readLineLen file ((Viewer.scroll_down file s).1.window.getLastD 0) ≠ 0 := by
          intro h0
          have := (viewer_scroll_down_beep_iff file _).mpr h0
          rw [hbeep1] at this
          cases this
        have hh1pos : readLineLen file ((Viewer.scroll_down file s).1.window.headD 0) ≠ 0 :=
          chain_first_pos file _ hch1 hn1
        have hls1 : lineStart file ((Viewer.scroll_down file s).1.window.headD 0) := by
          rw [hw1, hhead1.1] at hh1pos ⊢
          exact lineStart_next file (s.window.headD 0) hh1pos
        have hih := ih (Viewer.scroll_down file s).1 hne1 hls1 hch1 hok
        show (Viewer.scroll_up file
            (Viewer.scrollUpN file (k' + 1)
              (Viewer.scrollDownN file (k' + 1) (Viewer.scroll_down file s).1).1)).1.window
          = s.window
        have hX : (Viewer.scrollUpN file (k' + 1)
              (Viewer.scrollDownN file (k' + 1) (Viewer.scroll_down file s).1).1).window
            = s.window.tail ++ [s.window.getLastD 0 + readLineLen file (s.window.getLastD 0)] :=
          hih.trans hw1
        exact down_undone file s hne hls hch h4 hn _ hX

theorem dir_scroll_down_preserves (cap : Nat) (l : List Main.DirListItem) (v : Main.DirView)
    (hd : v.dirents = .ok l) (hinv : Main.dirInv cap v l.length) :
    Main.dirInv cap (Main.scroll_down cap v).1 l.length
    ∧ (Main.scroll_down cap v).1.dirents = .ok l := by
  obtain ⟨sel, off, de, dt⟩ := v
  simp only at hd
  subst hd
  have hred : Main.scroll_down cap ⟨sel, off, .ok l, dt⟩
      = if sel + 1 < l.length
        then ({ selected := sel + 1,
                scroll_offset := if off + cap ≤ sel + 1 then off + 1 else off,
                dirents := .ok l, dirty := true }, false)
        else (⟨sel, off, .ok l, dt⟩, true) := rfl
  rw [hred]
  unfold Main.dirInv at hinv ⊢
  simp only at hinv
  by_cases hsel : sel + 1 < l.length
  · rw [if_pos hsel]
    by_cases hoff : off + cap ≤ sel + 1
    · rw [if_pos hoff]
      exact ⟨by simp only; omega, rfl⟩
    · rw [if_neg hoff]
      exact ⟨by simp only; omega, rfl⟩
  · rw [if_neg hsel]
    exact ⟨by simp only; omega, rfl⟩

theorem dir_scroll_up_preserves (cap : Nat) (l : List Main.DirListItem) (v : Main.DirView)
    (hcap : 1 ≤ cap) (hd : v.dirents = .ok l) (hinv : Main.dirInv cap v l.length) :
    Main.dirInv cap (Main.scroll_up v).1 l.length
    ∧ (Main.scroll_up v).1.dirents = .ok l := by
  obtain ⟨sel, off, de, dt⟩ := v
  simp only at hd
  subst hd
  have hred : Main.scroll_up ⟨sel, off, .ok l, dt⟩
      = if sel > 0
        then ({ selected := sel - 1,
                scroll_offset := if sel - 1 < off then off - 1 else off,
                dirents := .ok l, dirty := true }, false)
        else (⟨sel, off, .ok l, dt⟩, true) := rfl
  rw [hred]
  unfold Main.dirInv at hinv ⊢
  simp only at hinv
  by_cases hsel : sel > 0
  · rw [if_pos hsel]
    by_cases hoff : sel - 1 < off
    · rw [if_pos hoff]
      exact ⟨by simp only; omega, rfl⟩
    · rw [if_neg hoff]
      exact ⟨by simp only; omega, rfl⟩
  · rw [if_neg hsel]
    exact ⟨by simp only; omega, rfl⟩

theorem dir_moves_preserve (cap : Nat) (l : List Main.DirListItem) (hcap : 1 ≤ cap) :
    ∀ (moves : List Main.Move) (v : Main.DirView), v.dirents = .ok l →
      Main.dirInv cap v l.length →
      Main.dirInv cap (Main.applyMoves cap moves v) l.length
      ∧ (Main.applyMoves cap moves v).dirents = .ok l := by
  intro moves
  induction moves with
  | nil => intro v hd hinv; exact ⟨hinv, hd⟩
  | cons m ms ih =>
    intro v hd hinv
    have hstep : Main.applyMoves cap (m :: ms) v
        = Main.applyMoves cap ms
            (match m with
             | Main.Move.up => (Main.scroll_up v).1
             | Main.Move.down => (Main.scroll_down cap v).1) := rfl
    rw [hstep]
    cases m with
    | up =>
      obtain ⟨h1, h2⟩ := dir_scroll_up_preserves cap l v hcap hd hinv
      exact ih _ h2 h1
    | down =>
      obtain ⟨h1, h2⟩ := dir_scroll_down_preserves cap l v hd hinv
      exact ih _ h2 h1

theorem lexLe_cons_iff (a b : Nat) (as bs : List Nat) :
    Main.lexLe (a :: as) (b :: bs) = true ↔ a < b ∨ (a = b ∧ Main.lexLe as bs = true) := by
  show (Nat.blt a b || (a == b && Main.lexLe as bs)) = true ↔ _
  simp [Bool.or_eq_true, Bool.and_eq_true, Nat.blt_eq, beq_iff_eq]

theorem lexLe_total : ∀ (a b : List Nat), Main.lexLe a b = true ∨ Main.lexLe b a = true := by
  intro a
  induction a with
  | nil => intro b; left; rfl
  | cons x xs ih =>
    intro b
    cases b with
    | nil => right; rfl
    | cons y ys =>
      rcases Nat.lt_trichotomy x y with h | h | h
      · left
        exact (lexLe_cons_iff x y xs ys).mpr (Or.inl h)
      · subst h
        rcases ih ys with h2 | h2
        · left
          exact (lexLe_cons_iff x x xs ys).mpr (Or.inr ⟨rfl, h2⟩)
        · right
          exact (lexLe_cons_iff x x ys xs).mpr (Or.inr ⟨rfl, h2⟩)
      · right
        exact (lexLe_cons_iff y x ys xs).mpr (Or.inl h)

theorem lexLe_trans : ∀ (a b c : List Nat), Main.lexLe a b = true → Main.lexLe b c = true →
    Main.lexLe a c = true := by
  intro a
  induction a with
  | nil => intro b c _ _; rfl
  | cons x xs ih =>
    intro b c hab hbc
    cases b with
    | nil => simp [Main.lexLe] at hab
    | cons y ys =>
      cases c with
      | nil => simp [Main.lexLe] at hbc
      | cons z zs =>
        rcases (lexLe_cons_iff x y xs ys).mp hab with h1 | ⟨rfl, h1⟩
        · rcases (lexLe_cons_iff y z ys zs).mp hbc with h2 | ⟨rfl, h2⟩
          · exact (lexLe_cons_iff x z xs zs).mpr (Or.inl (h1.trans h2))
          · exact (lexLe_cons_iff x y xs zs).mpr (Or.inl h1)
        · rcases (lexLe_cons_iff x z ys zs).mp hbc with h2 | ⟨rfl, h2⟩
          · exact (lexLe_cons_iff x z xs zs).mpr (Or.inl h2)
          · exact (lexLe_cons_iff x x xs zs).mpr (Or.inr ⟨rfl, ih ys zs h1 h2⟩)

instance : IsTotal (List Nat) Main.nameLe := ⟨lexLe_total⟩

instance : IsTrans (List Nat) Main.nameLe := ⟨fun a b c => lexLe_trans a b c⟩

theorem reload_eq_ok (d : Main.DirectoryFS) (p : Nat) (l : List (Except Unit (List Nat)))
    (hp : d.parent = some p) (hl : d.entries = .ok l) :
    Main.reload d
      = { selected := 0, scroll_offset := 0,
          dirents := .ok (Main.DirListItem.ParentDir p
            :: ((Main.okNames l).insertionSort Main.nameLe).map Main.DirListItem.Entry),
          dirty := true } := by
  obtain ⟨pa, en⟩ := d
  simp only at hp hl
  subst hp
  subst hl
  rfl

/-- C1: for every backing listing and every finite sequence of move_selection
(scroll_up / scroll_down) calls on a directory viewport with a non-empty
listing, selected stays within [0, length-1] and within
[scroll_offset, scroll_offset + capacity), where the capacity is the number of
visible rows (at least one, since DirView::new rejects windows of height
below 3 and the two border rows are subtracted). -/
theorem C1_dir_move_selection_invariant (cap : Nat) (l : List Main.DirListItem)
    (moves : List Main.Move) (hcap : 1 ≤ cap) (hne : l ≠ []) :
    Main.dirInv cap
      (Main.applyMoves cap moves
        { selected := 0, scroll_offset := 0, dirents := .ok l, dirty := true })
      l.length := by
  have hlen : 0 < l.length := List.length_pos.mpr hne
  exact (dir_moves_preserve cap l hcap moves _ rfl (by unfold Main.dirInv; simp only; omega)).1

/-- Witness for C1: capacity 2, a three-entry listing and the presses down,
down, up. -/
theorem C1_witness :
    1 ≤ 2
    ∧ ([Main.DirListItem.Entry aName, Main.DirListItem.Entry bName,
        Main.DirListItem.Entry cName] : List Main.DirListItem) ≠ []
    ∧ Main.dirInv 2
        (Main.applyMoves 2 [Main.Move.down, Main.Move.down, Main.Move.up]
          { selected := 0, scroll_offset := 0,
            dirents := .ok [Main.DirListItem.Entry aName, Main.DirListItem.Entry bName,
              Main.DirListItem.Entry cName],
            dirty := true })
        3 :=
  ⟨by decide, by decide,
    C1_dir_move_selection_invariant 2
      [Main.DirListItem.Entry aName, Main.DirListItem.Entry bName, Main.DirListItem.Entry cName]
      [Main.Move.down, Main.Move.down, Main.Move.up] (by decide) (by decide)⟩

/-- C2: for every file and every top-of-window offset o0 with 0 < o0 and o0
within the file, the backward scan of find_prev_line_start examines the chunk
of min 4096 (o0-1) bytes that ends exactly at byte o0 - 1 exclusive (skipping
the newline that precedes o0); if the last newline of that chunk is at
relative index r the result is (o0 - 1 - chunk_len) + r + 1, and if the chunk
holds no newline the result is 0. -/
theorem C2_find_prev_line_start_spec (file : List Nat) (o0 : Nat)
    (h0 : 0 < o0) (hle : o0 ≤ file.length) :
    ((file.take (o0 - 1)).drop (o0 - 1 - min 4096 (o0 - 1))).length ≤ 4096
    ∧ (o0 - 1 - min 4096 (o0 - 1))
        + ((file.take (o0 - 1)).drop (o0 - 1 - min 4096 (o0 - 1))).length = o0 - 1
    ∧ Viewer.find_prev_line_start file o0
      = match rposition (fun b => b == nlByte)
            ((file.take (o0 - 1)).drop (o0 - 1 - min 4096 (o0 - 1))) with
        | some r =>
            o0 - 1 - ((file.take (o0 - 1)).drop (o0 - 1 - min 4096 (o0 - 1))).length + r + 1
        | none => 0 := by
  have hmin1 : min 4096 (o0 - 1) ≤ 4096 := Nat.min_le_left _ _
  have hmin2 : min 4096 (o0 - 1) ≤ o0 - 1 := Nat.min_le_right _ _
  have hchunk : (file.take (o0 - 1)).drop (o0 - 1 - min 4096 (o0 - 1))
      = readBytes file (o0 - 1 - min 4096 (o0 - 1)) (min 4096 (o0 - 1)) := by
    rw [List.drop_take]
    unfold readBytes
    congr 1
    omega
  have hlen : ((file.take (o0 - 1)).drop (o0 - 1 - min 4096 (o0 - 1))).length
      = min 4096 (o0 - 1) := by
    rw [hchunk, readBytes_length]
    omega
  refine ⟨by rw [hlen]; exact hmin1, by rw [hlen]; omega, ?_⟩
  rw [find_prev_line_start_eq file o0 (by omega)]
  rw [hlen, hchunk]
  have harg : o0 - min 4096 (o0 - 1) - 1 = o0 - 1 - min 4096 (o0 - 1) := by omega
  rw [harg]

/-- Witness for C2 on the file a-newline-b-c at offset 2: the chunk is the
single byte before the newline, holds no newline, and the scan returns 0. -/
theorem C2_witness :
    0 < 2 ∧ 2 ≤ ([97, 10, 98, 99] : List Nat).length
    ∧ ([97] : List Nat).length ≤ 4096
    ∧ 0 + ([97] : List Nat).length = 1
    ∧ Viewer.find_prev_line_start [97, 10, 98, 99] 2
      = match rposition (fun b => b == nlByte) ([97] : List Nat) with
        | some r => 0 + r + 1
        | none => 0 :=
  ⟨by decide, by decide, C2_find_prev_line_start_spec [97, 10, 98, 99] 2 (by decide) (by decide)⟩

/-- C3: a file-viewer scroll-forward request reads one line at the trailing
offset oN; when zero bytes are read (end of file) the LineWindow is unchanged
and the alert sounds; otherwise exactly o0 is dropped at the front,
oN + bytes_read is appended at the back, and the window length is unchanged. -/
theorem C3_viewer_scroll_down_spec (file : List Nat) (s : Viewer.ViewerState)
    (hne : s.window ≠ []) :
    (readLineLen file (s.window.getLastD 0) = 0 →
      (Viewer.scroll_down file s).1.window = s.window ∧ (Viewer.scroll_down file s).2 = true)
    ∧ (readLineLen file (s.window.getLastD 0) ≠ 0 →
      (Viewer.scroll_down file s).1.window
        = s.window.tail ++ [s.window.getLastD 0 + readLineLen file (s.window.getLastD 0)]
      ∧ (Viewer.scroll_down file s).1.window.length = s.window.length
      ∧ (Viewer.scroll_down file s).2 = false) := by
  constructor
  · intro h0
    rw [viewer_scroll_down_def, if_pos h0]
    exact ⟨rfl, rfl⟩
  · intro hn
    refine ⟨viewer_scroll_down_window file s hn, ?_, ?_⟩
    · rw [viewer_scroll_down_window file s hn]
      have hpos : 0 < s.window.length := List.length_pos.mpr hne
      rw [List.length_append, List.length_tail]
      simp only [List.length_singleton]
      omega
    · rw [viewer_scroll_down_def, if_neg hn]

/-- Witness for C3 on the two-line file a-newline-b-newline with window
[0, 2]: the line at offset 2 has 2 bytes, 0 is dropped and 4 appended. -/
theorem C3_witness :
    ([0, 2] : List Nat) ≠ []
    ∧ (readLineLen [97, 10, 98, 10] 2 = 0 →
        (Viewer.scroll_down [97, 10, 98, 10] ⟨[0, 2], 2⟩).1.window = [0, 2]
        ∧ (Viewer.scroll_down [97, 10, 98, 10] ⟨[0, 2], 2⟩).2 = true)
    ∧ (readLineLen [97, 10, 98, 10] 2 ≠ 0 →
        (Viewer.scroll_down [97, 10, 98, 10] ⟨[0, 2], 2⟩).1.window
          = [2, 2 + readLineLen [97, 10, 98, 10] 2]
        ∧ (Viewer.scroll_down [97, 10, 98, 10] ⟨[0, 2], 2⟩).1.window.length = 2
        ∧ (Viewer.scroll_down [97, 10, 98, 10] ⟨[0, 2], 2⟩).2 = false) :=
  ⟨by decide, C3_viewer_scroll_down_spec [97, 10, 98, 10] ⟨[0, 2], 2⟩ (by decide)⟩

/-- C4: scrolling the file viewer forward by k lines and then backward by k
lines restores the LineWindow to exactly its original sequence of offsets,
for every well-formed window, whenever all k forward scrolls succeed (k does
not exceed the lines available below the window) and no line of the file
exceeds the 4096-byte backward-scan chunk size. -/
theorem C4_viewer_scroll_roundtrip (file : List Nat) (k : Nat) (s : Viewer.ViewerState)
    (hgood : goodWindow file s.window)
    (h4096 : ∀ o, o < file.length → lineStart file o → readLineLen file o ≤ 4096)
    (hok : (Viewer.scrollDownN file k s).2 = false) :
    (Viewer.scrollUpN file k (Viewer.scrollDownN file k s).1).window = s.window := by
  obtain ⟨hne, hls, hch⟩ := hgood
  exact roundtrip_aux file h4096 k s hne hls hch hok

/-- Witness for C4 on the three-line scenario file with window [0, 4, 8] and
k = 1. -/
theorem C4_witness :
    goodWindow fileC4 [0, 4, 8]
    ∧ (∀ o, o < fileC4.length → lineStart fileC4 o → readLineLen fileC4 o ≤ 4096)
    ∧ (Viewer.scrollDownN fileC4 1 ⟨[0, 4, 8], 8⟩).2 = false
    ∧ (Viewer.scrollUpN fileC4 1 (Viewer.scrollDownN fileC4 1 ⟨[0, 4, 8], 8⟩).1).window
      = [0, 4, 8] :=
  ⟨by decide, by decide, by decide,
    C4_viewer_scroll_roundtrip fileC4 1 ⟨[0, 4, 8], 8⟩ (by decide) (by decide) (by decide)⟩

/-- C5 (code defect): on fileC5 with capacity 2 the viewer opens with window
[0, 2, 5]; resizing down to capacity 1 and back to 2 yields [0, 2, 6] — the
length is restored but the offset 6 differs from the original 5, because
expand_rows reads at the reader position left by the earlier fill (byte 5)
while recording line_offsets.back() + bytes_read, instead of seeking to the
recorded trailing offset 2. -/
theorem C5_viewer_resize_loses_offsets :
    (Viewer.view_file_open fileC5 2).window = [0, 2, 5]
    ∧ (Viewer.viewer_resize fileC5 2 (Viewer.viewer_resize fileC5 1
        (Viewer.view_file_open fileC5 2))).window = [0, 2, 6]
    ∧ (Viewer.viewer_resize fileC5 2 (Viewer.viewer_resize fileC5 1
        (Viewer.view_file_open fileC5 2))).window.length
      = (Viewer.view_file_open fileC5 2).window.length
    ∧ (Viewer.viewer_resize fileC5 2 (Viewer.viewer_resize fileC5 1
        (Viewer.view_file_open fileC5 2))).window
      ≠ (Viewer.view_file_open fileC5 2).window := by
  decide

/-- C6 counterexample: in the scenario directory the load yields the order
[ParentLink, a.txt, b.txt, c], but the selected (highlighted) row immediately
after load is index 0 — the ParentLink — and not a.txt as the claim states. -/
theorem C6_counterexample :
    (Main.reload dirC6).selected = 0
    ∧ (Main.reload dirC6).dirents
      = .ok [Main.DirListItem.ParentDir 0, Main.DirListItem.Entry aName,
          Main.DirListItem.Entry bName, Main.DirListItem.Entry cName]
    ∧ Main.DirListItem.ParentDir 0 ≠ Main.DirListItem.Entry aName := by
  decide

/-- C6 amended: for every non-root directory whose read_dir succeeds, loading
yields the ParentLink first followed by the successfully read names in
byte-wise sorted order (a permutation of them), and the selected row
immediately after load is index 0, the ParentLink; the scenario directory
concretely loads as [ParentLink, a.txt, b.txt, c]. -/
theorem C6_reload_order_amended :
    (∀ (d : Main.DirectoryFS) (p : Nat) (l : List (Except Unit (List Nat))),
      d.parent = some p → d.entries = .ok l →
      ∃ es, (Main.reload d).dirents
          = .ok (Main.DirListItem.ParentDir p :: es.map Main.DirListItem.Entry)
        ∧ List.Sorted Main.nameLe es ∧ es.Perm (Main.okNames l)
        ∧ (Main.reload d).selected = 0)
    ∧ ((Main.reload dirC6).dirents
        = .ok [Main.DirListItem.ParentDir 0, Main.DirListItem.Entry aName,
            Main.DirListItem.Entry bName, Main.DirListItem.Entry cName]
      ∧ (Main.reload dirC6).selected = 0) := by
  constructor
  · intro d p l hp hl
    refine ⟨(Main.okNames l).insertionSort Main.nameLe, ?_, ?_, ?_, ?_⟩
    · rw [reload_eq_ok d p l hp hl]
    · exact List.sorted_insertionSort _ _
    · exact List.perm_insertionSort _ _
    · rw [reload_eq_ok d p l hp hl]
  · exact ⟨by decide, by decide⟩

/-- Witness for C6 at the scenario directory. -/
theorem C6_witness :
    dirC6.parent = some 0
    ∧ dirC6.entries = .ok [.ok bName, .ok aName, .ok cName]
    ∧ ∃ es, (Main.reload dirC6).dirents
        = .ok (Main.DirListItem.ParentDir 0 :: es.map Main.DirListItem.Entry)
      ∧ List.Sorted Main.nameLe es
      ∧ es.Perm (Main.okNames [.ok bName, .ok aName, .ok cName])
      ∧ (Main.reload dirC6).selected = 0 :=
  ⟨rfl, rfl, C6_reload_order_amended.1 dirC6 0 [.ok bName, .ok aName, .ok cName] rfl rfl⟩

/-- C7 counterexample: vC7 has selected 3 and scroll_offset 0 (reachable at
capacity 4); after resize with a new capacity of 2 the invariant
selected < scroll_offset + capacity is broken and scroll_offset is still 0,
not advanced to restore it as the claim requires. -/
theorem C7_counterexample :
    (Main.resize vC7).scroll_offset = 0
    ∧ (Main.resize vC7).selected = 3
    ∧ ¬ ((Main.resize vC7).selected < (Main.resize vC7).scroll_offset + 2) := by
  decide

/-- C7 amended: DirView::resize sets dirty and leaves both selected and
scroll_offset unchanged; it never moves scroll_offset, so the invariant
selected < scroll_offset + capacity is not restored when the new capacity
breaks it. -/
theorem C7_resize_amended (v : Main.DirView) :
    (Main.resize v).selected = v.selected
    ∧ (Main.resize v).scroll_offset = v.scroll_offset
    ∧ (Main.resize v).dirty = true :=
  ⟨rfl, rfl, rfl⟩

/-- C8 counterexample: a file-viewer scroll-backward request with top offset
o0 = 0 leaves the state unchanged but calls no beep, contradicting the claim
that the boundary attempt is surfaced as an audible alert. -/
theorem C8_counterexample :
    (Viewer.scroll_up fileC8 sC8).1 = sC8 ∧ (Viewer.scroll_up fileC8 sC8).2 = false := by
  decide

/-- C8 amended: every boundary scroll attempt leaves the scrolled state
unchanged and never terminates the program (each handler is a total state
update); the directory panel beeps at both boundaries and the file viewer
beeps at end of file, but the file-viewer backward request at o0 = 0 is
silent. -/
theorem C8_boundary_amended :
    (∀ (file : List Nat) (s : Viewer.ViewerState), s.window.headD 0 = 0 →
      Viewer.scroll_up file s = (s, false))
    ∧ (∀ (file : List Nat) (s : Viewer.ViewerState),
        readLineLen file (s.window.getLastD 0) = 0 →
        (Viewer.scroll_down file s).1.window = s.window ∧ (Viewer.scroll_down file s).2 = true)
    ∧ (∀ (cap : Nat) (v : Main.DirView) (l : List Main.DirListItem),
        v.dirents = .ok l → ¬ (v.selected + 1 < l.length) →
        Main.scroll_down cap v = (v, true))
    ∧ (∀ (v : Main.DirView), v.selected = 0 → Main.scroll_up v = (v, true)) := by
  refine ⟨?_, ?_, ?_, ?_⟩
  · intro file s h
    exact viewer_scroll_up_zero file s h
  · intro file s h0
    rw [viewer_scroll_down_def, if_pos h0]
    exact ⟨rfl, rfl⟩
  · intro cap v l hd hnot
    obtain ⟨sel, off, de, dt⟩ := v
    simp only at hd
    subst hd
    have hred : Main.scroll_down cap ⟨sel, off, .ok l, dt⟩
        = if sel + 1 < l.length
          then ({ selected := sel + 1,
                  scroll_offset := if off + cap ≤ sel + 1 then off + 1 else off,
                  dirents := .ok l, dirty := true }, false)
          else (⟨sel, off, .ok l, dt⟩, true) := rfl
    rw [hred, if_neg hnot]
  · intro v hsel
    obtain ⟨sel, off, de, dt⟩ := v
    simp only at hsel
    subst hsel
    cases de with
    | ok l =>
      have hred : Main.scroll_up ⟨0, off, .ok l, dt⟩
          = if 0 > 0
            then ({ selected := 0 - 1,
                    scroll_offset := if 0 - 1 < off then off - 1 else off,
                    dirents := .ok l, dirty := true }, false)
            else (⟨0, off, .ok l, dt⟩, true) := rfl
      rw [hred, if_neg (by omega)]
    | error e => rfl

/-- Witness for C8 amended: the four boundary situations at concrete states. -/
theorem C8_witness :
    Viewer.scroll_up [97, 10, 98, 10] ⟨[0, 2], 2⟩ = (⟨[0, 2], 2⟩, false)
    ∧ ((Viewer.scroll_down [97, 10] ⟨[0, 2], 2⟩).1.window = [0, 2]
        ∧ (Viewer.scroll_down [97, 10] ⟨[0, 2], 2⟩).2 = true)
    ∧ Main.scroll_down 2
        ⟨1, 0, .ok [Main.DirListItem.Entry aName, Main.DirListItem.Entry bName], false⟩
        = (⟨1, 0, .ok [Main.DirListItem.Entry aName, Main.DirListItem.Entry bName], false⟩, true)
    ∧ Main.scroll_up ⟨0, 0, .ok [Main.DirListItem.Entry aName], false⟩
        = (⟨0, 0, .ok [Main.DirListItem.Entry aName], false⟩, true) :=
  ⟨C8_boundary_amended.1 [97, 10, 98, 10] ⟨[0, 2], 2⟩ (by decide),
   C8_boundary_amended.2.1 [97, 10] ⟨[0, 2], 2⟩ (by decide),
   C8_boundary_amended.2.2.1 2 _ [Main.DirListItem.Entry aName, Main.DirListItem.Entry bName]
     rfl (by decide),
   C8_boundary_amended.2.2.2 _ rfl⟩

/-- C9 (code defect): is_openable_dir consults only the fs::metadata outcome
(following symbolic links); the read_dir confirmation is commented out in the
source, so an entry that resolves to a directory which cannot actually be
opened for listing still yields true, while the claim (and the function's own
comment) requires false for it. -/
theorem C9_is_openable_dir_ignores_readability :
    Main.is_openable_dir { meta := .ok true, readDirOk := false } = true
    ∧ (∀ (m : Except Unit Bool) (r1 r2 : Bool),
        Main.is_openable_dir { meta := m, readDirOk := r1 }
          = Main.is_openable_dir { meta := m, readDirOk := r2 }) := by
  constructor
  · decide
  · intro m r1 r2
    rfl

/-- C10: when read_dir itself succeeds, entries whose retrieval fails are
silently omitted: the load still returns Ok with the remaining names sorted
(a sorted permutation of exactly the successfully read names). -/
theorem C10_read_directory_skips_errors (d : Main.DirectoryFS)
    (l : List (Except Unit (List Nat))) (hl : d.entries = .ok l) :
    ∃ es, Main.read_directory_contents d = .ok es
      ∧ List.Sorted Main.nameLe es ∧ es.Perm (Main.okNames l) := by
  refine ⟨(Main.okNames l).insertionSort Main.nameLe, ?_,
    List.sorted_insertionSort _ _, List.perm_insertionSort _ _⟩
  obtain ⟨pa, en⟩ := d
  simp only at hl
  subst hl
  rfl

/-- Witness for C10 at a directory whose second entry fails to be read. -/
theorem C10_witness :
    dirC10.entries = .ok [.ok bName, .error (), .ok aName]
    ∧ ∃ es, Main.read_directory_contents dirC10 = .ok es
      ∧ List.Sorted Main.nameLe es
      ∧ es.Perm (Main.okNames [.ok bName, .error (), .ok aName]) :=
  ⟨rfl, C10_read_directory_skips_errors dirC10 [.ok bName, .error (), .ok aName] rfl⟩
